import Mathlib

/-!
# Verification of the `nc_prometheus_exporter` converter core

This file is a shallow embedding, in Lean 4, of the conversion pipeline of the
`nc_prometheus_exporter` repository (`src/lib/mod.rs`): the function
`xml_to_prometheus` together with its helpers `nc_metric_to_number` and
`xml_path_to_metric_name`, the serde_json `Value` operations they use, the
`md5` content hash, and Rust's `f64` parsing/formatting as used by the value
coercion step.

Modelling conventions:

* The quick_xml `Reader` is library code, not repository code.  The event loop
  in `xml_to_prometheus` consumes the sequence of `read_event` results, so the
  reader is modelled as the list of events it yields (`XEvent`).  Concrete XML
  fixtures are translated to their event lists by hand, following quick_xml's
  documented behaviour with `trim_text(true)`: one `Start`/`End` event per
  element tag, text events carrying the whitespace-trimmed raw (still escaped)
  text, whitespace-only text producing no event, and parse failures appearing
  as `err` events (after which `read_event` can still be called and can yield
  further events, since the `Err` arm of the source loop does not `break`).
* The input `xml` has Rust type `&str`, so it is valid UTF-8; tag-name slices
  are delimited by ASCII characters, hence themselves valid UTF-8, so the
  `String::from_utf8(...).unwrap()` on tag names never panics and `start`
  events simply carry a `String`.
* `e.unescape_and_decode(&reader).unwrap()` panics when the raw text does not
  unescape (e.g. an unknown entity `&bad;`).  Panics are modelled by `Option`:
  the embedded converter returns `none` where the Rust code would panic.
* Machine integers are modelled as `Nat`/`Int` (the occurrence counters and
  hash arithmetic stay far below any relevant bound in every statement below;
  `i32` overflow of a counter after `2^31` occurrences of one name is outside
  the model).  The 32-bit words of md5 are `Nat` reduced `% 2^32` explicitly.
* Rust's `f64` parsing is modelled by its grammar, with the numeric value kept
  as an exact rational; `Display` formatting is modelled exactly on values
  with a finite decimal expansion (every value produced by the parser is of
  this shape).  IEEE rounding of overlong literals, `-0`, and overflow of
  huge exponents to infinity are outside the model; no statement below
  depends on them.
* `HashMap<String, i32>` is modelled as an association list in first-insertion
  order.  The only iteration over the map (`keys()`) is immediately sorted in
  the source, so iteration order is irrelevant to every result.
-/

/-! ## Decimal rendering of machine integers (Rust `format!("{}", n)`) -/

/-- Least-significant-first decimal digits of `n`; structural fuel makes the
definition kernel-reducible.  With `fuel ≥ n` the result is the full digit
list of `n` (empty for `n = 0`). -/
def digitsRevAux : Nat → Nat → List Nat
  | 0, _ => []
  | fuel + 1, n => if n = 0 then [] else n % 10 :: digitsRevAux fuel (n / 10)

/-- The decimal digit list actually rendered for `n` (so `[0]` for `0`),
least significant first. -/
def decDigits (n : Nat) : List Nat :=
  if n = 0 then [0] else digitsRevAux n n

/-- Decimal rendering of a `Nat`, as Rust's `format!("{}", n)` renders an
unsigned integer. -/
def natDecimal (n : Nat) : String :=
  ⟨((decDigits n).reverse.map Nat.digitChar)⟩

/-- Decimal rendering of an `Int`, as Rust renders a signed integer. -/
def intDecimal (i : Int) : String :=
  if i < 0 then "-" ++ natDecimal i.natAbs else natDecimal i.natAbs

/-- Value of a least-significant-first digit list. -/
def revVal : List Nat → Nat
  | [] => 0
  | d :: ds => d + 10 * revVal ds

theorem digitsRevAux_spec : ∀ fuel n, n ≤ fuel → revVal (digitsRevAux fuel n) = n := by
  intro fuel
  induction fuel with
  | zero => intro n h; interval_cases n; simp [digitsRevAux, revVal]
  | succ fuel ih =>
    intro n h
    by_cases h0 : n = 0
    · simp [digitsRevAux, h0, revVal]
    · have hdiv : n / 10 ≤ fuel := by
        have : n / 10 < n := Nat.div_lt_self (Nat.pos_of_ne_zero h0) (by omega)
        omega
      simp only [digitsRevAux, h0, if_false, revVal, ih _ hdiv]
      omega

theorem revVal_decDigits (n : Nat) : revVal (decDigits n) = n := by
  by_cases h : n = 0
  · simp [decDigits, h, revVal]
  · simp [decDigits, h, digitsRevAux_spec n n (Nat.le_refl n)]

theorem decDigits_lt_ten : ∀ fuel n, ∀ d ∈ digitsRevAux fuel n, d < 10 := by
  intro fuel
  induction fuel with
  | zero => intro n d hd; simp [digitsRevAux] at hd
  | succ fuel ih =>
    intro n d hd
    by_cases h0 : n = 0
    · simp [digitsRevAux, h0] at hd
    · simp only [digitsRevAux, h0, if_false, List.mem_cons] at hd
      rcases hd with h | h
      · subst h; exact Nat.mod_lt _ (by omega)
      · exact ih _ _ h

theorem decDigits_mem_lt (n : Nat) : ∀ d ∈ decDigits n, d < 10 := by
  intro d hd
  by_cases h : n = 0
  · simp [decDigits, h] at hd; omega
  · simp only [decDigits, h, if_false] at hd
    exact decDigits_lt_ten n n d hd

theorem decDigits_ne_nil (n : Nat) : decDigits n ≠ [] := by
  by_cases h : n = 0
  · simp [decDigits, h]
  · have h1 : 1 ≤ n := Nat.pos_of_ne_zero h
    obtain ⟨m, rfl⟩ : ∃ m, n = m + 1 := ⟨n - 1, by omega⟩
    simp [decDigits, digitsRevAux, h]

theorem digitChar_inj {d e : Nat} (hd : d < 10) (he : e < 10)
    (h : Nat.digitChar d = Nat.digitChar e) : d = e := by
  interval_cases d <;> interval_cases e <;> first | rfl | (exfalso; exact absurd h (by decide))

theorem natDecimal_inj {m n : Nat} (h : natDecimal m = natDecimal n) : m = n := by
  have hdata : ((decDigits m).reverse.map Nat.digitChar) = ((decDigits n).reverse.map Nat.digitChar) := by
    have := congrArg String.data h
    simpa [natDecimal] using this
  have hdigits : decDigits m = decDigits n := by
    have hrev : (decDigits m).reverse = (decDigits n).reverse := by
      clear h
      revert hdata
      have hm := decDigits_mem_lt m
      have hn := decDigits_mem_lt n
      generalize (decDigits m) = dm at *
      generalize (decDigits n) = dn at *
      have hm' : ∀ d ∈ dm.reverse, d < 10 := by intro d hd; exact hm d (List.mem_reverse.mp hd)
      have hn' : ∀ d ∈ dn.reverse, d < 10 := by intro d hd; exact hn d (List.mem_reverse.mp hd)
      generalize dm.reverse = rm at *
      generalize dn.reverse = rn at *
      clear hm hn
      induction rm generalizing rn with
      | nil => cases rn <;> simp
      | cons d ds ih =>
        cases rn with
        | nil => simp
        | cons e es =>
          intro hmap
          simp only [List.map_cons, List.cons.injEq] at hmap
          have hde : d = e := digitChar_inj (hm' d (by simp)) (hn' e (by simp)) hmap.1
          have hds : ds = es := ih (fun x hx => hm' x (by simp [hx])) es
            (fun x hx => hn' x (by simp [hx])) hmap.2
          simp [hde, hds]
    have := congrArg List.reverse hrev
    simpa using this
  have := congrArg revVal hdigits
  simpa [revVal_decDigits] using this

theorem natDecimal_ne_empty (n : Nat) : (natDecimal n).data ≠ [] := by
  simp only [natDecimal]
  intro h
  exact decDigits_ne_nil n (by simpa using congrArg List.reverse (List.map_eq_nil_iff.mp h))

theorem digitChar_isDigit {d : Nat} (hd : d < 10) : (Nat.digitChar d).isDigit = true := by
  interval_cases d <;> decide

theorem natDecimal_all_digits (n : Nat) : ∀ c ∈ (natDecimal n).data, c.isDigit = true := by
  intro c hc
  simp only [natDecimal, List.mem_map, List.mem_reverse] at hc
  obtain ⟨d, hd, rfl⟩ := hc
  exact digitChar_isDigit (decDigits_mem_lt n d hd)

/-! ## Hexadecimal encoding and `i32::from_str_radix(_, 16)` -/

/-- Lowercase hex digit character, as produced by the `hex` crate. -/
def hexDigitChar (d : Nat) : Char :=
  if d < 10 then Char.ofNat (48 + d) else Char.ofNat (87 + d)

/-- Lowercase hex encoding of a byte list (`hex::encode`). -/
def hexEncode (bs : List Nat) : String :=
  ⟨(bs.map fun b => [hexDigitChar (b / 16), hexDigitChar (b % 16)]).flatten⟩

/-- Numeric value of a hex digit character (either case), or `none`. -/
def hexCharVal (c : Char) : Option Nat :=
  if '0' ≤ c ∧ c ≤ '9' then some (c.toNat - 48)
  else if 'a' ≤ c ∧ c ≤ 'f' then some (c.toNat - 87)
  else if 'A' ≤ c ∧ c ≤ 'F' then some (c.toNat - 55)
  else none

/-- `i32::from_str_radix(s, 16)` restricted to unsigned numerals: parses a
nonempty string of hex digits, failing on other characters or on `i32`
overflow.  (The source only ever applies it to `hex::encode` output, which is
nonempty, sign-free and below `2^31`.) -/
def from_str_radix16 (s : String) : Option Nat :=
  match s.data.mapM hexCharVal with
  | none => none
  | some [] => none
  | some ds =>
    let v := ds.foldl (fun a d => 16 * a + d) 0
    if v < 2 ^ 31 then some v else none

/-! ## UTF-8 encoding of strings -/

/-- UTF-8 byte sequence of one character. -/
def utf8Char (c : Char) : List Nat :=
  let n := c.toNat
  if n < 0x80 then [n]
  else if n < 0x800 then [0xC0 + n / 64, 0x80 + n % 64]
  else if n < 0x10000 then [0xE0 + n / 4096, 0x80 + n / 64 % 64, 0x80 + n % 64]
  else [0xF0 + n / 262144, 0x80 + n / 4096 % 64, 0x80 + n / 64 % 64, 0x80 + n % 64]

/-- UTF-8 bytes of a string, as Rust sees the bytes of a `String`. -/
def utf8Bytes (s : String) : List Nat :=
  (s.data.map utf8Char).flatten

/-! ## md5 (RFC 1321), as used by the `md5` crate

All words are `Nat` taken `% 2^32`.  The sine-derived round constants and the
per-round shift amounts are the fixed tables of the algorithm. -/

/-- Truncation to a 32-bit word. -/
def w32 (n : Nat) : Nat := n % 4294967296

/-- 32-bit bitwise complement (argument assumed `< 2^32`). -/
def wnot (a : Nat) : Nat := 4294967295 - a

/-- 32-bit left rotation (argument assumed `< 2^32`). -/
def rotl32 (x n : Nat) : Nat := w32 (x <<< n) + (x >>> (32 - n))

/-- The 64 sine-derived md5 round constants. -/
def md5K : List Nat :=
  [0xd76aa478, 0xe8c7b756, 0x242070db, 0xc1bdceee,
   0xf57c0faf, 0x4787c62a, 0xa8304613, 0xfd469501,
   0x698098d8, 0x8b44f7af, 0xffff5bb1, 0x895cd7be,
   0x6b901122, 0xfd987193, 0xa679438e, 0x49b40821,
   0xf61e2562, 0xc040b340, 0x265e5a51, 0xe9b6c7aa,
   0xd62f105d, 0x02441453, 0xd8a1e681, 0xe7d3fbc8,
   0x21e1cde6, 0xc33707d6, 0xf4d50d87, 0x455a14ed,
   0xa9e3e905, 0xfcefa3f8, 0x676f02d9, 0x8d2a4c8a,
   0xfffa3942, 0x8771f681, 0x6d9d6122, 0xfde5380c,
   0xa4beea44, 0x4bdecfa9, 0xf6bb4b60, 0xbebfbc70,
   0x289b7ec6, 0xeaa127fa, 0xd4ef3085, 0x04881d05,
   0xd9d4d039, 0xe6db99e5, 0x1fa27cf8, 0xc4ac5665,
   0xf4292244, 0x432aff97, 0xab9423a7, 0xfc93a039,
   0x655b59c3, 0x8f0ccc92, 0xffeff47d, 0x85845dd1,
   0x6fa87e4f, 0xfe2ce6e0, 0xa3014314, 0x4e0811a1,
   0xf7537e82, 0xbd3af235, 0x2ad7d2bb, 0xeb86d391]

/-- The md5 per-round left-rotation amounts. -/
def md5S : List Nat :=
  [7, 12, 17, 22, 7, 12, 17, 22, 7, 12, 17, 22, 7, 12, 17, 22,
   5, 9, 14, 20, 5, 9, 14, 20, 5, 9, 14, 20, 5, 9, 14, 20,
   4, 11, 16, 23, 4, 11, 16, 23, 4, 11, 16, 23, 4, 11, 16, 23,
   6, 10, 15, 21, 6, 10, 15, 21, 6, 10, 15, 21, 6, 10, 15, 21]

/-- One md5 round: state `(a, b, c, d)`, message words `M`, round index `i`. -/
def md5Round (M : List Nat) (st : Nat × Nat × Nat × Nat) (i : Nat) : Nat × Nat × Nat × Nat :=
  let (a, b, c, d) := st
  let (f, g) :=
    if i < 16 then ((b &&& c) ||| (wnot b &&& d), i)
    else if i < 32 then ((d &&& b) ||| (wnot d &&& c), (5 * i + 1) % 16)
    else if i < 48 then (b ^^^ c ^^^ d, (3 * i + 5) % 16)
    else (c ^^^ (b ||| wnot d), (7 * i) % 16)
  let f := w32 (f + a + md5K.getD i 0 + M.getD g 0)
  (d, w32 (b + rotl32 f (md5S.getD i 0)), b, c)

/-- Little-endian 32-bit word from four bytes. -/
def leWord : List Nat → Nat
  | [b0, b1, b2, b3] => b0 + 256 * b1 + 65536 * b2 + 16777216 * b3
  | _ => 0

/-- Little-endian byte decomposition of a 32-bit word. -/
def leBytes4 (x : Nat) : List Nat :=
  [x % 256, x / 256 % 256, x / 65536 % 256, x / 16777216 % 256]

/-- md5 padding: `0x80`, zeros to 56 mod 64, then the bit length as a 64-bit
little-endian quantity. -/
def md5Pad (msg : List Nat) : List Nat :=
  let padLen := (55 + 64 - msg.length % 64) % 64 + 1
  let bitLen := (8 * msg.length) % (2 ^ 64)
  msg ++ (0x80 :: List.replicate (padLen - 1) 0) ++
    (List.range 8).map (fun i => bitLen / 256 ^ i % 256)

/-- Process one 64-byte block. -/
def md5Block (st : Nat × Nat × Nat × Nat) (block : List Nat) : Nat × Nat × Nat × Nat :=
  let M := (List.range 16).map fun j => leWord ((block.drop (4 * j)).take 4)
  let (a, b, c, d) := st
  let (a', b', c', d') := (List.range 64).foldl (md5Round M) (a, b, c, d)
  (w32 (a + a'), w32 (b + b'), w32 (c + c'), w32 (d + d'))

/-- md5 digest (16 bytes) of a byte list: the four state words `a b c d` in
little-endian byte order. -/
def md5Bytes (msg : List Nat) : List Nat :=
  let padded := md5Pad msg
  let blocks := (List.range (padded.length / 64)).map fun i => (padded.drop (64 * i)).take 64
  let st := blocks.foldl md5Block (0x67452301, 0xefcdab89, 0x98badcfe, 0x10325476)
  leBytes4 st.1 ++ leBytes4 st.2.1 ++ leBytes4 st.2.2.1 ++ leBytes4 st.2.2.2

/-! ## serde_json `Value`

Model of the serde_json value tree.  JSON numbers are modelled as integers
(`serde_json` distinguishes `u64`/`i64`/`f64`; every number appearing in the
replacement configurations of this repository is integral, and no statement
below depends on non-integral numbers).  Objects are association lists; only
key lookup and serialization are used by the source. -/

inductive JValue where
  | null
  | bool (b : Bool)
  | num (n : Int)
  | str (s : String)
  | arr (xs : List JValue)
  | obj (kvs : List (String × JValue))

/-- Object-key lookup, `serde_json::Value::get`: `Some` only on objects that
contain the key, `None` otherwise. -/
def JValue.get? : JValue → String → Option JValue
  | .obj kvs, k => go kvs k
  | _, _ => none
where
  go : List (String × JValue) → String → Option JValue
    | [], _ => none
    | (k', v) :: rest, k => if k' = k then some v else go rest k

/-- `value[key]` indexing on `serde_json::Value`: the entry when present, and
`Value::Null` when the value is not an object or lacks the key. -/
def JValue.index (v : JValue) (k : String) : JValue :=
  (v.get? k).getD JValue.null

/-- serde_json's escape of one character inside a JSON string literal:
`\"`, `\\`, the short control escapes, and lowercase `\u00xx` for the
remaining control characters. -/
def jsonEscapeChar (c : Char) : List Char :=
  if c = '"' then ['\\', '"']
  else if c = '\\' then ['\\', '\\']
  else if c.toNat ≥ 0x20 then [c]
  else if c = '\x08' then ['\\', 'b']
  else if c = '\t' then ['\\', 't']
  else if c = '\n' then ['\\', 'n']
  else if c = '\x0c' then ['\\', 'f']
  else if c = '\r' then ['\\', 'r']
  else ['\\', 'u', '0', '0', hexDigitChar (c.toNat / 16), hexDigitChar (c.toNat % 16)]

/-- JSON serialization of a string literal, quotes included. -/
def jsonSerializeString (s : String) : String :=
  ⟨'"' :: (s.data.map jsonEscapeChar).flatten ++ ['"']⟩

mutual

/-- Compact JSON serialization: `serde_json::Value::to_string()` (via the
`Display` impl), which is what the source interpolates into a metric line for
a replacement value. -/
def JValue.to_string : JValue → String
  | .null => "null"
  | .bool b => if b then "true" else "false"
  | .num n => intDecimal n
  | .str s => jsonSerializeString s
  | .arr xs => "[" ++ String.intercalate "," (JValue.serializeItems xs) ++ "]"
  | .obj kvs => "\x7b" ++ String.intercalate "," (JValue.serializeFields kvs) ++ "\x7d"

/-- Serializations of array items, in order. -/
def JValue.serializeItems : List JValue → List String
  | [] => []
  | x :: xs => x.to_string :: JValue.serializeItems xs

/-- Serializations of object fields, in order. -/
def JValue.serializeFields : List (String × JValue) → List String
  | [] => []
  | (k, v) :: kvs => (jsonSerializeString k ++ ":" ++ v.to_string) :: JValue.serializeFields kvs

end

/-! ## Rust `f64` parsing and `Display` formatting

`nc_metric_to_number` calls `value.trim().parse::<f64>()` and, on success,
`format!("{}", val)`.  The parser is modelled by Rust's literal grammar
(optional sign; `inf`/`infinity`/`nan` case-insensitively; otherwise a decimal
mantissa with at least one digit, an optional `.` fractional part and an
optional `e`/`E` exponent), with the value kept as an exact rational. -/

inductive RustF64 where
  | finite (q : ℚ)
  | inf
  | neginf
  | nan
deriving DecidableEq

/-- Rust's `char::is_whitespace`: the Unicode `White_Space` property. -/
def rustIsWhitespace (c : Char) : Bool :=
  let n := c.toNat
  decide (n = 32) || (decide (9 ≤ n) && decide (n ≤ 13)) ||
  decide (n = 0x85) || decide (n = 0xa0) || decide (n = 0x1680) ||
  (decide (0x2000 ≤ n) && decide (n ≤ 0x200a)) ||
  decide (n = 0x2028) || decide (n = 0x2029) || decide (n = 0x202f) ||
  decide (n = 0x205f) || decide (n = 0x3000)

/-- Rust's `str::trim`: strip leading and trailing whitespace. -/
def strTrim (s : String) : String :=
  ⟨((s.data.dropWhile rustIsWhitespace).reverse.dropWhile rustIsWhitespace).reverse⟩

/-- Numeric value of a list of decimal digit characters. -/
def digitsVal (cs : List Char) : Nat :=
  cs.foldl (fun a c => 10 * a + (c.toNat - 48)) 0

/-- Case-insensitive comparison against an ASCII keyword. -/
def lowerEq (cs : List Char) (lit : String) : Bool :=
  cs.map Char.toLower == lit.data

/-- Split an optional leading sign; returns (negative?, rest). -/
def splitSign : List Char → Bool × List Char
  | '+' :: r => (false, r)
  | '-' :: r => (true, r)
  | r => (false, r)

/-- Parse the optional exponent suffix (`e`/`E`, optional sign, at least one
digit, nothing after).  `[]` means exponent `0`. -/
def parseExpOpt : List Char → Option Int
  | [] => some 0
  | c :: r =>
    if c = 'e' ∨ c = 'E' then
      let (eneg, r2) := splitSign r
      let ds := r2.takeWhile Char.isDigit
      if ds ≠ [] ∧ r2.dropWhile Char.isDigit = [] then
        some (if eneg then -(digitsVal ds : Int) else (digitsVal ds : Int))
      else none
    else none

/-- Parse the decimal-mantissa form (after the sign has been removed).  The
value `digits * 10^e / 10^(#fractional digits)` is assembled with `mkRat` so
that it stays kernel-reducible. -/
def parseDecimalMantissa (neg : Bool) (cs : List Char) : Option RustF64 :=
  let intPart := cs.takeWhile Char.isDigit
  let rest := cs.dropWhile Char.isDigit
  let build : List Char → List Char → Int → RustF64 := fun ip fp e =>
    let digits := digitsVal (ip ++ fp)
    let pnum : Nat := if 0 ≤ e then 10 ^ e.toNat else 1
    let pden : Nat := if 0 ≤ e then 1 else 10 ^ (-e).toNat
    let q := mkRat (digits * pnum) (10 ^ fp.length * pden)
    .finite (if neg then Rat.neg q else q)
  match rest with
  | '.' :: rest2 =>
    let fracPart := rest2.takeWhile Char.isDigit
    let rest3 := rest2.dropWhile Char.isDigit
    if intPart = [] ∧ fracPart = [] then none
    else (parseExpOpt rest3).map (build intPart fracPart)
  | _ =>
    if intPart = [] then none
    else (parseExpOpt rest).map (build intPart [])

/-- Model of Rust's `str::parse::<f64>()` on an already-trimmed string. -/
def rustParseF64 (s : String) : Option RustF64 :=
  match s.data with
  | [] => none
  | cs =>
    let (neg, cs') := splitSign cs
    if lowerEq cs' "inf" ∨ lowerEq cs' "infinity" then
      some (if neg then .neginf else .inf)
    else if lowerEq cs' "nan" then some .nan
    else parseDecimalMantissa neg cs'

/-- Extract the exponent of `p` in `n` with structural fuel:
`(multiplicity, remaining cofactor)`. -/
def factorOut (p : Nat) : Nat → Nat → Nat × Nat
  | 0, n => (0, n)
  | fuel + 1, n =>
    if n % p = 0 ∧ 0 < n ∧ 1 < p then
      let (e, r) := factorOut p fuel (n / p)
      (e + 1, r)
    else (0, n)

/-- Rust `Display` of a finite `f64` whose value has a terminating decimal
expansion (true of every parse result): the shortest decimal digit string, a
`.` only when the value is not an integer.  Rationals whose reduced
denominator is not of the form `2^a * 5^b` cannot arise from parsing; they
get an inert `num/den` rendering. -/
def formatDecimal (q : ℚ) : String :=
  let sign := if q.num < 0 then "-" else ""
  let (a, r2) := factorOut 2 q.den q.den
  let (b, r5) := factorOut 5 r2 r2
  if r5 ≠ 1 then sign ++ natDecimal q.num.natAbs ++ "/" ++ natDecimal q.den
  else
    let k := max a b
    let scaled := q.num.natAbs * (10 ^ k / q.den)
    if k = 0 then sign ++ natDecimal scaled
    else
      let ds := (natDecimal scaled).data
      let ds := List.replicate (k + 1 - ds.length) '0' ++ ds
      sign ++ ⟨ds.take (ds.length - k)⟩ ++ "." ++ ⟨ds.drop (ds.length - k)⟩

/-- Rust `Display` (`format!("{}", val)`) of a parsed `f64` value. -/
def formatRustF64 : RustF64 → String
  | .nan => "NaN"
  | .inf => "inf"
  | .neginf => "-inf"
  | .finite q => formatDecimal q

/-! ## quick_xml text unescaping

`unescape_and_decode` first decodes (the identity here, since the input is a
`&str`) and then unescapes `&...;` sequences: the five predefined entities,
`&#<decimal>;` and `&#x<hex>;` character references (valid Unicode scalar
values only).  Anything else — an `&` with no following `;`, an unknown
entity name, an invalid character reference — is an error, which the source
turns into a panic by `.unwrap()`. -/

/-- Is `n` a Unicode scalar value? -/
def isValidScalar (n : Nat) : Bool :=
  decide (n < 0xD800) || (decide (0xE000 ≤ n) && decide (n < 0x110000))

/-- Parse a nonempty digit string in the given base (`10` or `16`). -/
def parseRadix (base : Nat) (cs : List Char) : Option Nat :=
  match cs.mapM (fun c => match hexCharVal c with
    | some d => if d < base then some d else none
    | none => none) with
  | none => none
  | some [] => none
  | some ds => some (ds.foldl (fun a d => base * a + d) 0)

/-- Resolve the body of one `&...;` entity reference. -/
def resolveEntity (ent : List Char) : Option Char :=
  if ent = "lt".data then some '<'
  else if ent = "gt".data then some '>'
  else if ent = "amp".data then some '&'
  else if ent = "apos".data then some '\''
  else if ent = "quot".data then some '"'
  else
    match ent with
    | '#' :: rest =>
      let scalar :=
        match rest with
        | 'x' :: hs => parseRadix 16 hs
        | 'X' :: hs => parseRadix 16 hs
        | ds => parseRadix 10 ds
      match scalar with
      | some n => if isValidScalar n then some (Char.ofNat n) else none
      | none => none
    | _ => none

/-- Unescape a character list; the structural fuel dominates the input length
so the recursion is kernel-reducible.  `none` models an unescape error. -/
def unescapeAux : Nat → List Char → Option (List Char)
  | _, [] => some []
  | 0, _ => none
  | fuel + 1, c :: rest =>
    if c = '&' then
      let ent := rest.takeWhile (· ≠ ';')
      if ent.length = rest.length then none
      else
        match resolveEntity ent with
        | some ch => (unescapeAux fuel (rest.drop (ent.length + 1))).map (ch :: ·)
        | none => none
    else (unescapeAux fuel rest).map (c :: ·)

/-- Model of quick_xml's `unescape_and_decode` on the raw text of a text
event: `none` is an unescape error (a panic site in the source). -/
def unescape (s : String) : Option String :=
  (unescapeAux s.data.length s.data).map fun cs => ⟨cs⟩

/-! ## The converter core (`src/lib/mod.rs`) -/

/-- Non-overlapping left-to-right replacement of a nonempty pattern, Rust's
`str::replace`; structural fuel keeps it kernel-reducible.  (Rust's
empty-pattern behaviour, never exercised here, is not modelled.) -/
def replaceChars (pat rep : List Char) : Nat → List Char → List Char
  | 0, cs => cs
  | fuel + 1, cs =>
    if pat ≠ [] ∧ cs.take pat.length = pat then
      rep ++ replaceChars pat rep fuel (cs.drop pat.length)
    else
      match cs with
      | [] => []
      | c :: rest => c :: replaceChars pat rep fuel rest

/-- Rust's `str::replace` on strings. -/
def strReplace (s pat rep : String) : String :=
  ⟨replaceChars pat.data rep.data s.data.length s.data⟩

/-- `xml_path_to_metric_name`: join the ancestor path with `_` and replace
every `.` by `_`. -/
def xml_path_to_metric_name (path : List String) : String :=
  strReplace (String.intercalate "_" path) "." "_"

/-- The `Debug` rendering of the `ParseFloatError` interpolated into the
rejection message. -/
def parseFloatErrorDebug (trimmed : String) : String :=
  if trimmed.isEmpty then "ParseFloatError \x7b kind: Empty \x7d"
  else "ParseFloatError \x7b kind: Invalid \x7d"

/-- `nc_metric_to_number`: coerce a raw text value.  A value whose trimmed
text parses as `f64` is accepted with its `Display` formatting; otherwise the
trimmed text is looked up in the replacement dictionary and the JSON
serialization of the configured substitute is accepted; otherwise the value
is rejected with a diagnostic message. -/
def nc_metric_to_number (value : String) (replace_dict : JValue) : Except String String :=
  match rustParseF64 (strTrim value) with
  | some val => .ok (formatRustF64 val)
  | none =>
    match replace_dict.get? (strTrim value) with
    | some v => .ok v.to_string
    | none =>
      .error ("Error when trying to convert " ++ value ++ "\n" ++ parseFloatErrorDebug (strTrim value))

/-- One `read_event` result, with `Reader` library behaviour modelled away:
`start`/`end` element tags, a (trimmed, still escaped) text event, a parse
error (`err`), the end of the document (`eof`), and the events the loop
ignores (`Empty`, `Comment`, `CData`, `Decl`, `PI`, ...) collapsed into
`other`. -/
inductive XEvent where
  | start (name : String)
  | text (raw : String)
  | «end»
  | err
  | eof
  | other
deriving DecidableEq

/-- An accepted metric: the undecorated name derived from the path, the
emitted (possibly suffix-disambiguated) name, and the coerced value.  This is
ghost bookkeeping: `xml_to_prometheus` reads none of it, and the `txt` lines
of the state are proved equal to its rendering. -/
structure MetricRecord where
  undecorated : String
  decorated : String
  value : String
deriving DecidableEq

/-- The loop state of `xml_to_prometheus`: the output lines `txt`, the
name-occurrence table `metric_names` (association list in first-insertion
order), the ancestor `parent_stack`, plus the ghost `records`. -/
structure ConvState where
  txt : List String
  metric_names : List (String × Nat)
  parent_stack : List String
  records : List MetricRecord
deriving DecidableEq

/-- The state before the loop. -/
def initConvState : ConvState := ⟨[], [], [], []⟩

/-- First-match lookup in the occurrence table. -/
def lookupCount : List (String × Nat) → String → Option Nat
  | [], _ => none
  | (k, c) :: rest, n => if k = n then some c else lookupCount rest n

/-- `metric_names.entry(name).or_insert(0); *count += 1`: increment the entry
in place (appending a fresh entry with count 1), returning the updated table
and the updated count. -/
def bump : List (String × Nat) → String → List (String × Nat) × Nat
  | [], n => ([(n, 1)], 1)
  | (k, c) :: rest, n =>
    if k = n then ((k, c + 1) :: rest, c + 1)
    else
      let (rest', cnt) := bump rest n
      ((k, c) :: rest', cnt)

/-- The loop of `xml_to_prometheus` over the reader's events.  `Start` pushes
the tag name, `End` pops, a text event is unescaped (`none` = the source
panics), coerced, and on acceptance counted, disambiguated and emitted; `Err`
only logs and the loop continues; `Eof` breaks. -/
def processEvents (replace_cfg : JValue) : List XEvent → ConvState → Option ConvState
  | [], s => some s
  | e :: rest, s =>
    match e with
    | .eof => some s
    | .start name => processEvents replace_cfg rest { s with parent_stack := s.parent_stack ++ [name] }
    | .«end» => processEvents replace_cfg rest { s with parent_stack := s.parent_stack.dropLast }
    | .err => processEvents replace_cfg rest s
    | .other => processEvents replace_cfg rest s
    | .text raw =>
      match unescape raw with
      | none => none
      | some raw_text =>
        let metric_name := xml_path_to_metric_name s.parent_stack
        match nc_metric_to_number raw_text (replace_cfg.index "values") with
        | .error _ => processEvents replace_cfg rest s
        | .ok val =>
          let (tbl, name_count) := bump s.metric_names metric_name
          let metric_name' :=
            if name_count > 1 then metric_name ++ natDecimal name_count else metric_name
          processEvents replace_cfg rest
            { s with
              txt := s.txt ++ [metric_name' ++ " " ++ val],
              metric_names := tbl,
              records := s.records ++ [⟨metric_name, metric_name', val⟩] }

/-- The first trailer comment line. -/
def hashComment1 : String :=
  "# nc_metric_names_hash: first digits of a hash of all extracted metric names"

/-- The second trailer comment line. -/
def hashComment2 : String :=
  "# this number indicates change of names or change of number of metrics"

/-- Lexicographic comparison of character lists by code point.  On UTF-8
strings this coincides with Rust's byte-lexicographic `Ord for String`. -/
def charListLe : List Char → List Char → Bool
  | [], _ => true
  | _ :: _, [] => false
  | a :: as, b :: bs =>
    if a.toNat < b.toNat then true
    else if b.toNat < a.toNat then false
    else charListLe as bs

/-- Rust's `Ord`-based `≤` on strings, as a boolean function. -/
def strLeb (a b : String) : Bool := charListLe a.data b.data

/-- The sort order used by `all_names.sort()`. -/
def strLeRel (a b : String) : Prop := strLeb a b = true

instance : DecidableRel strLeRel := fun a b => instDecidableEqBool (strLeb a b) true

/-- `all_names.sort()` on the table's keys. -/
def sortedNames (tbl : List (String × Nat)) : List String :=
  List.insertionSort strLeRel (tbl.map Prod.fst)

/-- The sorted names concatenated with one `\n` after each entry. -/
def namesText (tbl : List (String × Nat)) : String :=
  String.join ((sortedNames tbl).map (· ++ "\n"))

/-- The signature computation of the source: md5 the names text, hex-encode
the first three digest bytes, parse that back in base 16 (`unwrap`ped in the
source; proved to never fail below). -/
def md5MetricOf (tbl : List (String × Nat)) : Option Nat :=
  from_str_radix16 (hexEncode ((md5Bytes (utf8Bytes (namesText tbl))).take 3))

/-- `xml_to_prometheus`: run the loop over the reader's events, then append
the trailer (two comment lines and the signature line) and join with `\n`.
`none` models a panic of the source. -/
def xml_to_prometheus (xml_events : List XEvent) (replace_cfg : JValue) : Option String :=
  match processEvents replace_cfg xml_events initConvState with
  | none => none
  | some s =>
    match md5MetricOf s.metric_names with
    | none => none
    | some md5_metric =>
      some (String.intercalate "\n"
        (s.txt ++ [hashComment1, hashComment2, "nc_metric_names_hash " ++ natDecimal md5_metric]))

/-! ## Fixtures

Event lists of the XML fixtures of the source's test module, and the
replacement configurations they use. -/

/-- `get_empty_config()`: `{"names": {}, "values": {}}`. -/
def cfgEmpty : JValue := .obj [("names", .obj []), ("values", .obj [])]

/-- The replacement config of the tests:
`{"values": {"ok": 1, "yes": 1, "OK": 1, "none": 0, "no": 0}}`. -/
def cfgReplacements : JValue :=
  .obj [("values", .obj
    [("ok", .num 1), ("yes", .num 1), ("OK", .num 1), ("none", .num 0), ("no", .num 0)])]

/-- Helper: the three events of one leaf element `<tag>text</tag>`. -/
def leafEvents (tag text : String) : List XEvent :=
  [.start tag, .text text, .«end»]

/-- Events of the six-element sample document of `test_xml_to_prometheus`
(numeric values). -/
def fixtureNumericEvents : List XEvent :=
  [XEvent.start "storage"] ++
  leafEvents "num_users" "42" ++
  leafEvents "num_files" "149545" ++
  leafEvents "num_storages" "66" ++
  leafEvents "num_storages_local" "1" ++
  leafEvents "num_storages_home" "65" ++
  leafEvents "num_storages_other" "0" ++
  [XEvent.«end», XEvent.eof]

/-- Events of the sample document of `test_xml_to_prometheus_with_replacements`
(every value except the first replaced by a configured token). -/
def fixtureReplacedEvents : List XEvent :=
  [XEvent.start "storage"] ++
  leafEvents "num_users" "42" ++
  leafEvents "num_files" "OK" ++
  leafEvents "num_storages" "none" ++
  leafEvents "num_storages_local" "yes" ++
  leafEvents "num_storages_home" "ok" ++
  leafEvents "num_storages_other" "no" ++
  [XEvent.«end», XEvent.eof]

/-- Events of the duplicate-`num_users` document of
`test_xml_to_prometheus_with_duplicate_names`. -/
def fixtureDuplicateEvents : List XEvent :=
  [XEvent.start "storage"] ++
  leafEvents "num_users" "42" ++
  leafEvents "num_users" "42" ++
  leafEvents "num_users" "42" ++
  leafEvents "num_files" "OK" ++
  leafEvents "num_storages" "none" ++
  [XEvent.«end», XEvent.eof]

/-- Expected output of the numeric fixture (both with the empty and with the
populated replacement config). -/
def fixtureNumericOutput : String :=
  "storage_num_users 42\nstorage_num_files 149545\nstorage_num_storages 66\n" ++
  "storage_num_storages_local 1\nstorage_num_storages_home 65\nstorage_num_storages_other 0\n" ++
  "# nc_metric_names_hash: first digits of a hash of all extracted metric names\n" ++
  "# this number indicates change of names or change of number of metrics\n" ++
  "nc_metric_names_hash 16071814"

/-- Expected output of the replaced-values fixture. -/
def fixtureReplacedOutput : String :=
  "storage_num_users 42\nstorage_num_files 1\nstorage_num_storages 0\n" ++
  "storage_num_storages_local 1\nstorage_num_storages_home 1\nstorage_num_storages_other 0\n" ++
  "# nc_metric_names_hash: first digits of a hash of all extracted metric names\n" ++
  "# this number indicates change of names or change of number of metrics\n" ++
  "nc_metric_names_hash 16071814"

/-- Expected output of the duplicate-names fixture. -/
def fixtureDuplicateOutput : String :=
  "storage_num_users 42\nstorage_num_users2 42\nstorage_num_users3 42\n" ++
  "storage_num_files 1\nstorage_num_storages 0\n" ++
  "# nc_metric_names_hash: first digits of a hash of all extracted metric names\n" ++
  "# this number indicates change of names or change of number of metrics\n" ++
  "nc_metric_names_hash 16217419"

/-! ## The loop invariant

`records` is ghost data; these lemmas relate it to the fields the source
actually maintains (`txt` and `metric_names`) and characterise the
disambiguation suffixes. -/

/-- The name emitted for the `c`-th accepted occurrence of `n` (`c ≥ 1`):
unchanged first, `n ++ digits(c)` afterwards. -/
def decorateName (n : String) (c : Nat) : String :=
  if c > 1 then n ++ natDecimal c else n

/-- The undecorated names of a record list, in acceptance order. -/
def undecoratedNames (recs : List MetricRecord) : List String :=
  recs.map (·.undecorated)

/-- Each record of the list carries the decoration determined by the number
of earlier occurrences of its undecorated name (`prev` being the names
accepted before the list starts). -/
def WellDecorated : List String → List MetricRecord → Prop
  | _, [] => True
  | prev, r :: rest =>
    r.decorated = decorateName r.undecorated (prev.count r.undecorated + 1) ∧
    WellDecorated (prev ++ [r.undecorated]) rest

theorem lookupCount_eq_none_iff (tbl : List (String × Nat)) (n : String) :
    lookupCount tbl n = none ↔ n ∉ tbl.map Prod.fst := by
  induction tbl with
  | nil => simp [lookupCount]
  | cons kv rest ih =>
    obtain ⟨k, c⟩ := kv
    by_cases h : k = n
    · subst h; simp [lookupCount]
    · simp only [lookupCount, if_neg h, List.map_cons, List.mem_cons, ih]
      constructor
      · intro hn hor
        rcases hor with h2 | h2
        · exact h h2.symm
        · exact hn h2
      · intro hn h2
        exact hn (Or.inr h2)

theorem bump_snd (tbl : List (String × Nat)) (n : String) :
    (bump tbl n).2 = (lookupCount tbl n).getD 0 + 1 := by
  induction tbl with
  | nil => simp [bump, lookupCount]
  | cons kv rest ih =>
    obtain ⟨k, c⟩ := kv
    by_cases h : k = n <;> simp [bump, lookupCount, h, ih]

theorem bump_lookup (tbl : List (String × Nat)) (n m : String) :
    lookupCount (bump tbl n).1 m =
      if m = n then some ((lookupCount tbl n).getD 0 + 1) else lookupCount tbl m := by
  induction tbl with
  | nil =>
    by_cases h : m = n
    · subst h; simp [bump, lookupCount]
    · have h' : ¬ n = m := fun h2 => h h2.symm
      simp [bump, lookupCount, h, h']
  | cons kv rest ih =>
    obtain ⟨k, c⟩ := kv
    by_cases hk : k = n
    · subst hk
      by_cases hm : m = k
      · subst hm; simp [bump, lookupCount]
      · have hm' : ¬ k = m := fun h2 => hm h2.symm
        simp [bump, lookupCount, hm, hm']
    · have hk' : ¬ n = k := fun h2 => hk h2.symm
      by_cases hm : m = k
      · subst hm
        simp [bump, lookupCount, hk]
      · have hm' : ¬ k = m := fun h2 => hm h2.symm
        simp [bump, lookupCount, hk, hm', ih]

theorem bump_keys (tbl : List (String × Nat)) (n : String) :
    (bump tbl n).1.map Prod.fst =
      if n ∈ tbl.map Prod.fst then tbl.map Prod.fst else tbl.map Prod.fst ++ [n] := by
  induction tbl with
  | nil => simp [bump]
  | cons kv rest ih =>
    obtain ⟨k, c⟩ := kv
    by_cases h : k = n
    · simp [bump, h]
    · simp only [bump, if_neg h, List.map_cons, List.mem_cons]
      have : ¬ n = k := fun hnk => h hnk.symm
      by_cases hmem : n ∈ rest.map Prod.fst <;> simp [this, hmem, ih]

theorem wellDecorated_append_singleton (r : MetricRecord) :
    ∀ (prev : List String) (l : List MetricRecord), WellDecorated prev l →
      r.decorated = decorateName r.undecorated
        ((prev ++ undecoratedNames l).count r.undecorated + 1) →
      WellDecorated prev (l ++ [r]) := by
  intro prev l
  induction l generalizing prev with
  | nil => intro _ hr; exact ⟨by simpa [undecoratedNames] using hr, trivial⟩
  | cons hd tl ih =>
    intro hwd hr
    refine ⟨hwd.1, ih (prev ++ [hd.undecorated]) hwd.2 ?_⟩
    simpa [undecoratedNames, List.append_assoc] using hr

/-- The loop invariant tying the ghost records to the real state. -/
structure ConvInv (s : ConvState) : Prop where
  txt_eq : s.txt = s.records.map (fun r => r.decorated ++ " " ++ r.value)
  keys_nodup : (s.metric_names.map Prod.fst).Nodup
  counts : ∀ n, (lookupCount s.metric_names n).getD 0 = (undecoratedNames s.records).count n
  counts_pos : ∀ n c, lookupCount s.metric_names n = some c → 0 < c
  wd : WellDecorated [] s.records

theorem convInv_init : ConvInv initConvState := by
  refine ⟨rfl, List.nodup_nil, ?_, ?_, trivial⟩
  · intro n; simp [initConvState, lookupCount, undecoratedNames]
  · intro n c h; simp [initConvState, lookupCount] at h

theorem convInv_keys_mem {s : ConvState} (inv : ConvInv s) (n : String) :
    n ∈ s.metric_names.map Prod.fst ↔ n ∈ undecoratedNames s.records := by
  constructor
  · intro h
    rcases hl : lookupCount s.metric_names n with _ | c
    · exact absurd ((lookupCount_eq_none_iff _ _).mp hl) (fun h2 => h2 h)
    · have hc := inv.counts_pos n c hl
      have := inv.counts n
      rw [hl] at this
      simp only [Option.getD_some] at this
      have : 0 < (undecoratedNames s.records).count n := this ▸ hc
      exact List.count_pos_iff.mp this
  · intro h
    by_contra hmem
    have hl := (lookupCount_eq_none_iff s.metric_names n).mpr hmem
    have := inv.counts n
    rw [hl] at this
    simp only [Option.getD_none] at this
    exact absurd (List.count_pos_iff.mpr h) (by omega)

theorem processEvents_inv (cfg : JValue) :
    ∀ (events : List XEvent) (s s' : ConvState),
      processEvents cfg events s = some s' → ConvInv s → ConvInv s' := by
  intro events
  induction events with
  | nil =>
    intro s s' h inv
    simp only [processEvents, Option.some.injEq] at h
    exact h ▸ inv
  | cons e rest ih =>
    intro s s' h inv
    cases e with
    | eof =>
      simp only [processEvents, Option.some.injEq] at h
      exact h ▸ inv
    | start name =>
      simp only [processEvents] at h
      exact ih _ _ h ⟨inv.txt_eq, inv.keys_nodup, inv.counts, inv.counts_pos, inv.wd⟩
    | «end» =>
      simp only [processEvents] at h
      exact ih _ _ h ⟨inv.txt_eq, inv.keys_nodup, inv.counts, inv.counts_pos, inv.wd⟩
    | err =>
      simp only [processEvents] at h
      exact ih _ _ h inv
    | other =>
      simp only [processEvents] at h
      exact ih _ _ h inv
    | text raw =>
      rcases hu : unescape raw with _ | raw_text
      · simp only [processEvents, hu] at h
        exact absurd h (by simp)
      · rcases hc : nc_metric_to_number raw_text (cfg.index "values") with msg | val
        · simp only [processEvents, hu, hc] at h
          exact ih _ _ h inv
        · rcases hb : bump s.metric_names (xml_path_to_metric_name s.parent_stack) with ⟨tbl, cnt⟩
          simp only [processEvents, hu, hc, hb] at h
          set n := xml_path_to_metric_name s.parent_stack with hn
          have htbl : tbl = (bump s.metric_names n).1 := by rw [hb]
          have hcnt : cnt = (bump s.metric_names n).2 := by rw [hb]
          have hcount : cnt = (undecoratedNames s.records).count n + 1 := by
            rw [hcnt, bump_snd, inv.counts]
          refine ih _ _ h ⟨?_, ?_, ?_, ?_, ?_⟩
          · simp only [inv.txt_eq, List.map_append, List.map_cons, List.map_nil]
          · rw [htbl, bump_keys]
            by_cases hmem : n ∈ s.metric_names.map Prod.fst
            · simpa [hmem] using inv.keys_nodup
            · simp only [hmem, if_false]
              rw [List.nodup_append]
              exact ⟨inv.keys_nodup, List.nodup_singleton n, by
                intro a ha hb2
                simp only [List.mem_singleton] at hb2
                exact hmem (hb2 ▸ ha)⟩
          · intro m
            rw [htbl, bump_lookup]
            by_cases hm : m = n
            · subst hm
              simp only [if_pos rfl, Option.getD_some, inv.counts,
                undecoratedNames, List.map_append, List.count_append]
              simp [undecoratedNames]
            · simp only [if_neg hm, inv.counts,
                undecoratedNames, List.map_append, List.count_append]
              simp [hm]
          · intro m c hl
            rw [htbl, bump_lookup] at hl
            by_cases hm : m = n
            · rw [if_pos hm] at hl
              simp only [Option.some.injEq] at hl
              omega
            · rw [if_neg hm] at hl
              exact inv.counts_pos m c hl
          · apply wellDecorated_append_singleton _ _ _ inv.wd
            simp only [List.nil_append]
            rw [← hcount]
            simp only [decorateName]

/-! ## Uniqueness of the emitted names

The `name + N` disambiguation scheme guarantees distinct emitted names
exactly when no accepted undecorated name can be obtained from another by
appending decimal digits; `hasDigitSuffixPair` is the decidable check for
the offending configuration. -/

/-- `true` iff some name in the list equals another name of the list with a
nonempty run of decimal digits appended. -/
def hasDigitSuffixPair (names : List String) : Bool :=
  names.any fun a => names.any fun b =>
    decide (b.data.length < a.data.length) &&
    (a.data.take b.data.length == b.data) &&
    (a.data.drop b.data.length).all Char.isDigit

/-- No name of the list is another name of the list followed by decimal
digits. -/
def SuffixFree (names : List String) : Prop := hasDigitSuffixPair names = false

instance (names : List String) : Decidable (SuffixFree names) :=
  inferInstanceAs (Decidable (hasDigitSuffixPair names = false))

theorem suffixFree_elim {names : List String} (h : SuffixFree names)
    {a b : String} (ha : a ∈ names) (hb : b ∈ names) (t : List Char)
    (ht : t ≠ []) (hdig : ∀ c ∈ t, c.isDigit = true) : a.data ≠ b.data ++ t := by
  intro heq
  have hlen : b.data.length < a.data.length := by
    rw [heq, List.length_append]
    cases t with
    | nil => exact absurd rfl ht
    | cons c cs => simp
  have htake : a.data.take b.data.length = b.data := by
    rw [heq]; exact List.take_left _ _
  have hdrop : a.data.drop b.data.length = t := by
    rw [heq]; exact List.drop_left _ _
  have : hasDigitSuffixPair names = true := by
    rw [hasDigitSuffixPair, List.any_eq_true]
    refine ⟨a, ha, ?_⟩
    rw [List.any_eq_true]
    refine ⟨b, hb, ?_⟩
    rw [Bool.and_eq_true, Bool.and_eq_true]
    refine ⟨⟨by simpa using hlen, by simpa using htake⟩, ?_⟩
    rw [hdrop, List.all_eq_true]
    exact hdig
  rw [SuffixFree] at h
  rw [h] at this
  exact Bool.false_ne_true this

theorem string_data_inj {a b : String} (h : a.data = b.data) : a = b := by
  cases a; cases b; exact congrArg String.mk h

/-- Two decorated occurrences are never equal unless they come from the same
undecorated name with the same occurrence index — given suffix-freeness of
the name set. -/
theorem decorateName_ne {names : List String} (hsf : SuffixFree names)
    {n1 n2 : String} (h1 : n1 ∈ names) (h2 : n2 ∈ names)
    {c1 c2 : Nat} (hc1 : 1 ≤ c1) (hc2 : 1 ≤ c2)
    (hne : n1 = n2 → c1 ≠ c2) :
    decorateName n1 c1 ≠ decorateName n2 c2 := by
  intro heq
  by_cases hn : n1 = n2
  · subst hn
    have hcc := hne rfl
    by_cases hg1 : c1 > 1 <;> by_cases hg2 : c2 > 1
    · rw [decorateName, if_pos hg1, decorateName, if_pos hg2] at heq
      have := congrArg String.data heq
      simp only [String.data_append] at this
      have := List.append_cancel_left this
      exact hcc (natDecimal_inj (string_data_inj this))
    · rw [decorateName, if_pos hg1, decorateName, if_neg hg2] at heq
      have hdata := congrArg String.data heq
      simp only [String.data_append] at hdata
      have hlen := congrArg List.length hdata
      rw [List.length_append] at hlen
      have hne1 : (natDecimal c1).data.length ≠ 0 :=
        fun hz => natDecimal_ne_empty c1 (List.length_eq_zero.mp hz)
      omega
    · rw [decorateName, if_neg hg1, decorateName, if_pos hg2] at heq
      have hdata := congrArg String.data heq
      simp only [String.data_append] at hdata
      have hlen := congrArg List.length hdata
      rw [List.length_append] at hlen
      have hne2 : (natDecimal c2).data.length ≠ 0 :=
        fun hz => natDecimal_ne_empty c2 (List.length_eq_zero.mp hz)
      omega
    · omega
  · by_cases hg1 : c1 > 1 <;> by_cases hg2 : c2 > 1
    · -- both suffixed: one name would be a digit-extension of the other
      rw [decorateName, if_pos hg1, decorateName, if_pos hg2] at heq
      have hdata := congrArg String.data heq
      simp only [String.data_append] at hdata
      rcases Nat.lt_trichotomy n1.data.length n2.data.length with hlt | heql | hgt
      · have htake := congrArg (List.take n2.data.length) hdata
        rw [List.take_append_eq_append_take, List.take_of_length_le (Nat.le_of_lt hlt),
          List.take_left] at htake
        have ht : (natDecimal c1).data.take (n2.data.length - n1.data.length) ≠ [] := by
          have hlen := congrArg List.length hdata
          simp only [List.length_append] at hlen
          intro hnil
          have := congrArg List.length hnil
          rw [List.length_take] at this
          simp only [List.length_nil] at this
          have hd1 : (natDecimal c1).data.length ≠ 0 :=
            fun hz => natDecimal_ne_empty c1 (List.length_eq_zero.mp hz)
          omega
        exact suffixFree_elim hsf h2 h1 _ ht
          (fun c hc => natDecimal_all_digits c1 c (List.mem_of_mem_take hc)) htake.symm
      · obtain ⟨hn12, _⟩ := List.append_inj hdata heql
        exact hn (string_data_inj hn12)
      · have htake := congrArg (List.take n1.data.length) hdata.symm
        rw [List.take_append_eq_append_take, List.take_of_length_le (Nat.le_of_lt hgt),
          List.take_left] at htake
        have ht : (natDecimal c2).data.take (n1.data.length - n2.data.length) ≠ [] := by
          intro hnil
          have := congrArg List.length hnil
          rw [List.length_take] at this
          simp only [List.length_nil] at this
          have hd2 : (natDecimal c2).data.length ≠ 0 :=
            fun hz => natDecimal_ne_empty c2 (List.length_eq_zero.mp hz)
          omega
        exact suffixFree_elim hsf h1 h2 _ ht
          (fun c hc => natDecimal_all_digits c2 c (List.mem_of_mem_take hc)) htake.symm
    · -- n1 suffixed, n2 bare: n1 ++ digits = n2
      rw [decorateName, if_pos hg1, decorateName, if_neg hg2] at heq
      have hdata := congrArg String.data heq
      simp only [String.data_append] at hdata
      exact suffixFree_elim hsf h2 h1 _ (natDecimal_ne_empty c1)
        (natDecimal_all_digits c1) hdata.symm
    · -- n1 bare, n2 suffixed
      rw [decorateName, if_neg hg1, decorateName, if_pos hg2] at heq
      have hdata := congrArg String.data heq
      simp only [String.data_append] at hdata
      exact suffixFree_elim hsf h1 h2 _ (natDecimal_ne_empty c2)
        (natDecimal_all_digits c2) hdata
    · rw [decorateName, if_neg hg1, decorateName, if_neg hg2] at heq
      exact hn heq

/-- Every record of a well-decorated list carries a decoration with an
occurrence index at least one beyond the occurrences accumulated in `prev`. -/
theorem wellDecorated_mem_decoration :
    ∀ (prev : List String) (recs : List MetricRecord), WellDecorated prev recs →
      ∀ r ∈ recs, ∃ c, r.decorated = decorateName r.undecorated c ∧
        prev.count r.undecorated + 1 ≤ c := by
  intro prev recs
  induction recs generalizing prev with
  | nil => intro _ r hr; exact absurd hr (List.not_mem_nil r)
  | cons hd tl ih =>
    intro hwd r hr
    rcases List.mem_cons.mp hr with hfst | hrest
    · subst hfst
      exact ⟨prev.count r.undecorated + 1, hwd.1, Nat.le_refl _⟩
    · obtain ⟨c, hc, hge⟩ := ih (prev ++ [hd.undecorated]) hwd.2 r hrest
      refine ⟨c, hc, ?_⟩
      rw [List.count_append] at hge
      omega

/-- Under suffix-freeness of the accepted undecorated names, the decorated
names of a well-decorated record list are pairwise distinct. -/
theorem nodup_decorated_aux (all : List String) (hsf : SuffixFree all) :
    ∀ (prev : List String) (recs : List MetricRecord),
      WellDecorated prev recs →
      (∀ r ∈ recs, r.undecorated ∈ all) →
      (recs.map (·.decorated)).Nodup := by
  intro prev recs
  induction recs generalizing prev with
  | nil => intro _ _; simp
  | cons hd tl ih =>
    intro hwd hmem
    simp only [List.map_cons, List.nodup_cons]
    refine ⟨?_, ih (prev ++ [hd.undecorated]) hwd.2
      (fun r hr => hmem r (List.mem_cons_of_mem _ hr))⟩
    intro hin
    obtain ⟨r, hr, hdec⟩ := List.mem_map.mp hin
    obtain ⟨c, hrdec, hge⟩ := wellDecorated_mem_decoration _ _ hwd.2 r hr
    have hmem1 : hd.undecorated ∈ all := hmem hd (List.mem_cons_self _ _)
    have hmem2 : r.undecorated ∈ all := hmem r (List.mem_cons_of_mem _ hr)
    have hne : r.undecorated = hd.undecorated → c ≠ prev.count hd.undecorated + 1 := by
      intro hequ
      rw [hequ, List.count_append] at hge
      have hone : List.count hd.undecorated [hd.undecorated] = 1 := by simp
      omega
    have hcge : 1 ≤ c := by
      rw [List.count_append] at hge
      omega
    have hneq := decorateName_ne hsf hmem2 hmem1 hcge (Nat.le_add_left 1 _) hne
    apply hneq
    rw [← hrdec, hdec, hwd.1]

/-! ## Order properties of the sort comparison -/

theorem char_toNat_inj {a b : Char} (h : a.toNat = b.toNat) : a = b :=
  Char.eq_of_val_eq (UInt32.toNat.inj h)

theorem charListLe_total : ∀ a b : List Char, charListLe a b = true ∨ charListLe b a = true := by
  intro a
  induction a with
  | nil => intro b; left; rfl
  | cons x xs ih =>
    intro b
    cases b with
    | nil => right; rfl
    | cons y ys =>
      rcases Nat.lt_trichotomy x.toNat y.toNat with h | h | h
      · left; simp [charListLe, h]
      · have hxy : ¬ x.toNat < y.toNat := by omega
        have hyx : ¬ y.toNat < x.toNat := by omega
        rcases ih ys with h2 | h2
        · left; simp [charListLe, hxy, hyx, h2]
        · right; simp [charListLe, hxy, hyx, h2]
      · right; simp [charListLe, h]

theorem charListLe_antisymm : ∀ a b : List Char,
    charListLe a b = true → charListLe b a = true → a = b := by
  intro a
  induction a with
  | nil =>
    intro b _ hba
    cases b with
    | nil => rfl
    | cons y ys => exact absurd hba (by simp [charListLe])
  | cons x xs ih =>
    intro b hab hba
    cases b with
    | nil => exact absurd hab (by simp [charListLe])
    | cons y ys =>
      rcases Nat.lt_trichotomy x.toNat y.toNat with h | h | h
      · have : ¬ y.toNat < x.toNat := by omega
        simp [charListLe, this, Nat.lt_irrefl, h] at hba
      · have hxy : ¬ x.toNat < y.toNat := by omega
        have hyx : ¬ y.toNat < x.toNat := by omega
        simp only [charListLe, if_neg hxy, if_neg hyx] at hab
        simp only [charListLe, if_neg hyx, if_neg hxy] at hba
        rw [char_toNat_inj h, ih ys hab hba]
      · have : ¬ x.toNat < y.toNat := by omega
        simp [charListLe, this, Nat.lt_irrefl, h] at hab

theorem charListLe_trans : ∀ a b c : List Char,
    charListLe a b = true → charListLe b c = true → charListLe a c = true := by
  intro a
  induction a with
  | nil => intro b c _ _; rfl
  | cons x xs ih =>
    intro b c hab hbc
    cases b with
    | nil => exact absurd hab (by simp [charListLe])
    | cons y ys =>
      cases c with
      | nil => exact absurd hbc (by simp [charListLe])
      | cons z zs =>
        rcases Nat.lt_trichotomy x.toNat y.toNat with hxy | hxy | hxy <;>
          rcases Nat.lt_trichotomy y.toNat z.toNat with hyz | hyz | hyz
        all_goals first
          | (exact absurd hab (by simp [charListLe]; omega))
          | (exact absurd hbc (by simp [charListLe]; omega))
          | (simp only [charListLe]; rw [if_pos (by omega)])
          | skip
        · have h1 : ¬ x.toNat < y.toNat := by omega
          have h2 : ¬ y.toNat < x.toNat := by omega
          have h3 : ¬ y.toNat < z.toNat := by omega
          have h4 : ¬ z.toNat < y.toNat := by omega
          simp only [charListLe, if_neg h1, if_neg h2] at hab
          simp only [charListLe, if_neg h3, if_neg h4] at hbc
          have h5 : ¬ x.toNat < z.toNat := by omega
          have h6 : ¬ z.toNat < x.toNat := by omega
          simp only [charListLe, if_neg h5, if_neg h6]
          exact ih ys zs hab hbc

instance : IsTotal String strLeRel :=
  ⟨fun a b => by
    rcases charListLe_total a.data b.data with h | h
    · exact Or.inl h
    · exact Or.inr h⟩

instance : IsTrans String strLeRel :=
  ⟨fun a b c hab hbc => charListLe_trans a.data b.data c.data hab hbc⟩

instance : IsAntisymm String strLeRel :=
  ⟨fun a b hab hba => string_data_inj (charListLe_antisymm a.data b.data hab hba)⟩

/-! ## The signature never panics and depends only on the name set -/

theorem leBytes4_lt (x : Nat) : ∀ b ∈ leBytes4 x, b < 256 := by
  intro b hb
  simp only [leBytes4, List.mem_cons, List.not_mem_nil, or_false] at hb
  rcases hb with h | h | h | h <;> (subst h; exact Nat.mod_lt _ (by omega))

theorem md5Bytes_bytes_lt (msg : List Nat) : ∀ b ∈ md5Bytes msg, b < 256 := by
  intro b hb
  rw [md5Bytes] at hb
  simp only [List.mem_append] at hb
  rcases hb with ((h | h) | h) | h <;> exact leBytes4_lt _ b h

theorem md5Bytes_take3_len (msg : List Nat) : ((md5Bytes msg).take 3).length = 3 := by
  have hlen : (md5Bytes msg).length = 16 := by
    rw [md5Bytes]
    simp [leBytes4]
  rw [List.length_take, hlen]
  decide

theorem hexCharVal_hexDigitChar {d : Nat} (hd : d < 16) :
    hexCharVal (hexDigitChar d) = some d := by
  interval_cases d <;> decide

theorem foldl_hex_lt : ∀ (ds : List Nat) (a : Nat), (∀ d ∈ ds, d < 16) →
    ds.foldl (fun a d => 16 * a + d) a < (a + 1) * 16 ^ ds.length := by
  intro ds
  induction ds with
  | nil => intro a _; simp
  | cons d rest ih =>
    intro a hd
    simp only [List.foldl_cons, List.length_cons]
    have h1 : d < 16 := hd d (List.mem_cons_self _ _)
    have h2 := ih (16 * a + d) (fun x hx => hd x (List.mem_cons_of_mem _ hx))
    calc rest.foldl (fun a d => 16 * a + d) (16 * a + d)
        < (16 * a + d + 1) * 16 ^ rest.length := h2
      _ ≤ (a + 1) * 16 ^ (rest.length + 1) := by
          rw [pow_succ]
          have : 16 * a + d + 1 ≤ (a + 1) * 16 := by omega
          calc (16 * a + d + 1) * 16 ^ rest.length
              ≤ (a + 1) * 16 * 16 ^ rest.length := Nat.mul_le_mul_right _ this
            _ = (a + 1) * (16 ^ rest.length * 16) := by ring

theorem from_str_radix16_hexEncode (bs : List Nat) (hlt : ∀ b ∈ bs, b < 256)
    (hne : bs ≠ []) (hlen : bs.length ≤ 3) :
    (from_str_radix16 (hexEncode bs)).isSome := by
  have hmap : ∀ (l : List Nat), (∀ b ∈ l, b < 256) →
      ((⟨(l.map fun b => [hexDigitChar (b / 16), hexDigitChar (b % 16)]).flatten⟩ :
        String).data.mapM hexCharVal) =
        some (l.map fun b => [b / 16, b % 16]).flatten := by
    intro l
    induction l with
    | nil => intro _; rfl
    | cons b rest ih =>
      intro hl
      have hb : b < 256 := hl b (List.mem_cons_self _ _)
      have h1 : b / 16 < 16 := by omega
      have h2 : b % 16 < 16 := Nat.mod_lt _ (by omega)
      simp only [List.map_cons, List.flatten_cons, List.cons_append, List.nil_append,
        List.mapM_cons, hexCharVal_hexDigitChar h1, hexCharVal_hexDigitChar h2,
        ih (fun x hx => hl x (List.mem_cons_of_mem _ hx))]
      rfl
  have hflat_ne : (bs.map fun b => [b / 16, b % 16]).flatten ≠ [] := by
    cases bs with
    | nil => exact absurd rfl hne
    | cons b rest => simp
  have hdig : ∀ d ∈ (bs.map fun b => [b / 16, b % 16]).flatten, d < 16 := by
    intro d hd
    simp only [List.mem_flatten, List.mem_map] at hd
    obtain ⟨l, ⟨b, hb, rfl⟩, hdl⟩ := hd
    have hblt := hlt b hb
    simp only [List.mem_cons, List.not_mem_nil, or_false] at hdl
    rcases hdl with h | h <;> omega
  have hlen2 : ∀ l : List Nat, (l.map fun b => [b / 16, b % 16]).flatten.length = 2 * l.length := by
    intro l
    induction l with
    | nil => rfl
    | cons b rest ih =>
      simp only [List.map_cons, List.flatten_cons, List.length_append, ih,
        List.length_cons, List.length_nil]
      omega
  have hfold : (bs.map fun b => [b / 16, b % 16]).flatten.foldl (fun a d => 16 * a + d) 0 <
      2 ^ 31 := by
    calc _ < (0 + 1) * 16 ^ (bs.map fun b => [b / 16, b % 16]).flatten.length :=
            foldl_hex_lt _ 0 hdig
      _ ≤ 1 * 16 ^ 6 := by
          apply Nat.mul_le_mul_left
          apply Nat.pow_le_pow_right (by omega)
          rw [hlen2 bs]
          omega
      _ < 2 ^ 31 := by norm_num
  cases hflat : (bs.map fun b => [b / 16, b % 16]).flatten with
  | nil => exact absurd hflat hflat_ne
  | cons d ds =>
    rw [from_str_radix16, hexEncode, hmap bs hlt, hflat]
    rw [hflat] at hfold
    simp only [hfold, if_true]
    rfl

theorem md5MetricOf_isSome (tbl : List (String × Nat)) : (md5MetricOf tbl).isSome := by
  rw [md5MetricOf]
  apply from_str_radix16_hexEncode
  · intro b hb
    exact md5Bytes_bytes_lt _ b (List.mem_of_mem_take hb)
  · intro h
    have := congrArg List.length h
    rw [md5Bytes_take3_len] at this
    exact absurd this (by simp)
  · have := md5Bytes_take3_len (utf8Bytes (namesText tbl))
    omega

/-- The drift-signature algorithm as the spec words it (the refinement
counterpart of `md5MetricOf`): deduplicate the undecorated names into a set,
sort lexicographically, concatenate with one newline after each entry, md5
the text, take the first three digest bytes, hex-encode and read back in
base 16. -/
def specSignature (names : List String) : Option Nat :=
  from_str_radix16 (hexEncode ((md5Bytes (utf8Bytes
    (String.join ((List.insertionSort strLeRel names.dedup).map (· ++ "\n"))))).take 3))

theorem list_toFinset_dedup (l : List String) : l.dedup.toFinset = l.toFinset := by
  apply Finset.ext
  intro a
  simp only [List.mem_toFinset, List.mem_dedup]

theorem insertionSort_eq_of_toFinset_eq {l1 l2 : List String}
    (h1 : l1.Nodup) (h2 : l2.Nodup) (h : l1.toFinset = l2.toFinset) :
    List.insertionSort strLeRel l1 = List.insertionSort strLeRel l2 := by
  have hperm : l1.Perm l2 := List.perm_of_nodup_nodup_toFinset_eq h1 h2 h
  have hp : (List.insertionSort strLeRel l1).Perm (List.insertionSort strLeRel l2) :=
    ((List.perm_insertionSort strLeRel l1).trans hperm).trans
      (List.perm_insertionSort strLeRel l2).symm
  exact List.eq_of_perm_of_sorted hp
    (List.sorted_insertionSort strLeRel l1) (List.sorted_insertionSort strLeRel l2)

/-- The signature the source computes from the occurrence table equals the
spec's algorithm applied to the undecorated names of the accepted records. -/
theorem md5MetricOf_eq_spec {s : ConvState} (inv : ConvInv s) :
    md5MetricOf s.metric_names = specSignature (undecoratedNames s.records) := by
  rw [md5MetricOf, specSignature, namesText, sortedNames]
  have hsort : List.insertionSort strLeRel (s.metric_names.map Prod.fst) =
      List.insertionSort strLeRel (undecoratedNames s.records).dedup := by
    apply insertionSort_eq_of_toFinset_eq inv.keys_nodup (List.nodup_dedup _)
    rw [list_toFinset_dedup]
    apply Finset.ext
    intro a
    rw [List.mem_toFinset, List.mem_toFinset]
    exact convInv_keys_mem inv a
  rw [hsort]

/-- The spec signature depends only on the *set* of names. -/
theorem specSignature_set_congr {l1 l2 : List String} (h : l1.toFinset = l2.toFinset) :
    specSignature l1 = specSignature l2 := by
  rw [specSignature, specSignature,
    insertionSort_eq_of_toFinset_eq (List.nodup_dedup l1) (List.nodup_dedup l2)
      (by rw [list_toFinset_dedup, list_toFinset_dedup, h])]

/-- The loop itself never "panics" when every text event unescapes. -/
theorem processEvents_isSome (cfg : JValue) :
    ∀ (events : List XEvent) (s : ConvState),
      (∀ raw, XEvent.text raw ∈ events → (unescape raw).isSome) →
      (processEvents cfg events s).isSome := by
  intro events
  induction events with
  | nil => intro s _; rfl
  | cons e rest ih =>
    intro s hun
    have hrest : ∀ raw, XEvent.text raw ∈ rest → (unescape raw).isSome :=
      fun raw hr => hun raw (List.mem_cons_of_mem _ hr)
    cases e with
    | eof => rfl
    | start name => exact ih _ hrest
    | «end» => exact ih _ hrest
    | err => exact ih _ hrest
    | other => exact ih _ hrest
    | text raw =>
      have := hun raw (List.mem_cons_self _ _)
      rcases hu : unescape raw with _ | raw_text
      · rw [hu] at this; exact absurd this (by simp)
      · rcases hc : nc_metric_to_number raw_text (cfg.index "values") with msg | val
        · simp only [processEvents, hu, hc]
          exact ih _ hrest
        · rcases hb : bump s.metric_names (xml_path_to_metric_name s.parent_stack) with ⟨tbl, cnt⟩
          simp only [processEvents, hu, hc, hb]
          exact ih _ hrest

/-- `xml_to_prometheus` in terms of the final loop state: the signature line
always materialises (the `from_str_radix` unwrap cannot fail) and the output
is the metric lines followed by the fixed trailer. -/
theorem xml_to_prometheus_output (events : List XEvent) (cfg : JValue) (s : ConvState)
    (h : processEvents cfg events initConvState = some s) :
    ∃ v, md5MetricOf s.metric_names = some v ∧
      xml_to_prometheus events cfg = some (String.intercalate "\n"
        (s.txt ++ [hashComment1, hashComment2, "nc_metric_names_hash " ++ natDecimal v])) := by
  rcases hv : md5MetricOf s.metric_names with _ | v
  · exact absurd (md5MetricOf_isSome s.metric_names) (by rw [hv]; simp)
  · refine ⟨v, rfl, ?_⟩
    simp only [xml_to_prometheus, h, hv]

/-- Output lines only ever accumulate: whatever was in `txt` when the loop
resumes is a prefix of the final `txt`. -/
theorem processEvents_txt_extends (cfg : JValue) :
    ∀ (events : List XEvent) (s s' : ConvState),
      processEvents cfg events s = some s' → ∃ t, s'.txt = s.txt ++ t := by
  intro events
  induction events with
  | nil =>
    intro s s' h
    simp only [processEvents, Option.some.injEq] at h
    exact ⟨[], by rw [← h, List.append_nil]⟩
  | cons e rest ih =>
    intro s s' h
    cases e with
    | eof =>
      simp only [processEvents, Option.some.injEq] at h
      exact ⟨[], by rw [← h, List.append_nil]⟩
    | start name =>
      simp only [processEvents] at h
      exact ih { s with parent_stack := s.parent_stack ++ [name] } s' h
    | «end» =>
      simp only [processEvents] at h
      exact ih { s with parent_stack := s.parent_stack.dropLast } s' h
    | err =>
      simp only [processEvents] at h
      exact ih s s' h
    | other =>
      simp only [processEvents] at h
      exact ih s s' h
    | text raw =>
      rcases hu : unescape raw with _ | raw_text
      · simp only [processEvents, hu] at h
        exact absurd h (by simp)
      · rcases hc : nc_metric_to_number raw_text (cfg.index "values") with msg | val
        · simp only [processEvents, hu, hc] at h
          exact ih s s' h
        · rcases hb : bump s.metric_names (xml_path_to_metric_name s.parent_stack) with ⟨tbl, cnt⟩
          simp only [processEvents, hu, hc, hb] at h
          obtain ⟨t, ht⟩ := ih _ _ h
          exact ⟨((if cnt > 1 then xml_path_to_metric_name s.parent_stack ++ natDecimal cnt
              else xml_path_to_metric_name s.parent_stack) ++ " " ++ val) :: t, by
            rw [ht]
            simp only [List.append_assoc, List.singleton_append]⟩

/-! ## Fixtures used by witnesses and counterexamples -/

/-- Events of `<a>1</a>`. -/
def exTinyEvents : List XEvent := [.start "a", .text "1", .«end», .eof]

/-- The loop state after converting `<a>1</a>`. -/
def exTinyState : ConvState := ⟨["a 1"], [("a", 1)], [], [⟨"a", "a", "1"⟩]⟩

/-- Events of `<r><a>1</a><b>2</b></r>`. -/
def exOrder1Events : List XEvent :=
  [.start "r", .start "a", .text "1", .«end», .start "b", .text "2", .«end», .«end», .eof]

/-- The loop state after converting `<r><a>1</a><b>2</b></r>`. -/
def exOrder1State : ConvState :=
  ⟨["r_a 1", "r_b 2"], [("r_a", 1), ("r_b", 1)], [],
    [⟨"r_a", "r_a", "1"⟩, ⟨"r_b", "r_b", "2"⟩]⟩

/-- Events of `<r><b>7</b><a>8</a></r>` (same element names, opposite order,
different values). -/
def exOrder2Events : List XEvent :=
  [.start "r", .start "b", .text "7", .«end», .start "a", .text "8", .«end», .«end», .eof]

/-- The loop state after converting `<r><b>7</b><a>8</a></r>`. -/
def exOrder2State : ConvState :=
  ⟨["r_b 7", "r_a 8"], [("r_b", 1), ("r_a", 1)], [],
    [⟨"r_b", "r_b", "7"⟩, ⟨"r_a", "r_a", "8"⟩]⟩

/-- Events of `<r><a>1</a><a>1</a><a2>1</a2></r>`: the disambiguated second
occurrence of `r_a` collides with the genuine element name `r_a2`. -/
def exC1Events : List XEvent :=
  [.start "r", .start "a", .text "1", .«end», .start "a", .text "1", .«end»,
   .start "a2", .text "1", .«end», .«end», .eof]

/-- Events of `<x><a>5</b><c>7</c></x>`: quick_xml reports the mismatched
`</b>` end tag as an `Err` (having consumed it and already popped its own
stack entry for `a`), and subsequent `read_event` calls yield the remaining
events. -/
def exC6Events : List XEvent :=
  [.start "x", .start "a", .text "5", .err, .start "c", .text "7", .«end», .«end», .eof]

/-! ## The claims -/

set_option maxRecDepth 100000

/-- C1: for every event stream and replacement config, the emitted metric
lines are exactly one line `decorated ++ " " ++ value` per accepted record
(so their number equals the number of accepted records) — and the emitted
names are pairwise distinct *provided* no accepted undecorated name is
another accepted undecorated name with decimal digits appended.  (The
unconditional uniqueness stated by the claim is refuted by
`C1_counterexample`.) -/
theorem C1_line_count_and_conditional_uniqueness
    (events : List XEvent) (cfg : JValue) (s : ConvState)
    (h : processEvents cfg events initConvState = some s) :
    s.txt = s.records.map (fun r => r.decorated ++ " " ++ r.value) ∧
    s.txt.length = s.records.length ∧
    (SuffixFree (undecoratedNames s.records) → (s.records.map (·.decorated)).Nodup) := by
  have inv := processEvents_inv cfg events initConvState s h convInv_init
  refine ⟨inv.txt_eq, by rw [inv.txt_eq, List.length_map], ?_⟩
  intro hsf
  exact nodup_decorated_aux _ hsf [] _ inv.wd
    (fun r hr => List.mem_map_of_mem _ hr)

/-- C1 witness: the conclusion instantiated on the conversion of `<a>1</a>`
with the empty replacement config. -/
theorem C1_witness :
    exTinyState.txt = exTinyState.records.map (fun r => r.decorated ++ " " ++ r.value) ∧
    exTinyState.txt.length = exTinyState.records.length ∧
    (exTinyState.records.map (·.decorated)).Nodup := by
  have t := C1_line_count_and_conditional_uniqueness exTinyEvents cfgEmpty exTinyState
    (by decide)
  exact ⟨t.1, t.2.1, t.2.2 (by decide)⟩

/-- C1 counterexample: on `<r><a>1</a><a>1</a><a2>1</a2></r>` the second
occurrence of `r_a` is emitted as `r_a2`, colliding with the genuine metric
`r_a2` — two emitted lines share the name `r_a2`, refuting the claimed
unconditional uniqueness. -/
theorem C1_counterexample :
    xml_to_prometheus exC1Events cfgEmpty = some
      ("r_a 1\nr_a2 1\nr_a2 1\n" ++ hashComment1 ++ "\n" ++ hashComment2 ++ "\n" ++
        "nc_metric_names_hash 682642") ∧
    (processEvents cfgEmpty exC1Events initConvState).map
        (fun s => s.records.map (·.decorated)) = some ["r_a", "r_a2", "r_a2"] ∧
    ¬ (["r_a", "r_a2", "r_a2"] : List String).Nodup := by
  refine ⟨by decide, by decide, by decide⟩

/-- C2: the emitted signature is a pure function of the set of undecorated
names of the accepted records — any two conversions (any inputs, any
replacement configs, any value content, any order of appearance) whose
accepted records have equal undecorated-name sets produce the identical
signature integer. -/
theorem C2_signature_function_of_name_set
    (ev1 : List XEvent) (cfg1 : JValue) (s1 : ConvState)
    (ev2 : List XEvent) (cfg2 : JValue) (s2 : ConvState)
    (h1 : processEvents cfg1 ev1 initConvState = some s1)
    (h2 : processEvents cfg2 ev2 initConvState = some s2)
    (hset : (undecoratedNames s1.records).toFinset = (undecoratedNames s2.records).toFinset) :
    md5MetricOf s1.metric_names = md5MetricOf s2.metric_names := by
  have i1 := processEvents_inv cfg1 ev1 initConvState s1 h1 convInv_init
  have i2 := processEvents_inv cfg2 ev2 initConvState s2 h2 convInv_init
  rw [md5MetricOf_eq_spec i1, md5MetricOf_eq_spec i2]
  exact specSignature_set_congr hset

/-- C2 witness: `<r><a>1</a><b>2</b></r>` and `<r><b>7</b><a>8</a></r>`
(different order, different values, differently ordered occurrence tables)
yield the same signature. -/
theorem C2_witness :
    md5MetricOf exOrder1State.metric_names = md5MetricOf exOrder2State.metric_names :=
  C2_signature_function_of_name_set exOrder1Events cfgEmpty exOrder1State
    exOrder2Events cfgEmpty exOrder2State (by decide) (by decide) (by decide)

/-- C3: the signature equals the spec's algorithm — dedup the undecorated
names, sort, concatenate each followed by a newline, md5, first three bytes,
hex, parse base 16 — and on the fixture documents it takes the literal
values `16071814` (numeric values, empty config; numeric values, populated
config; replaced values) and `16217419` (duplicated `num_users`). -/
theorem C3_signature_algorithm_and_fixture_values :
    (∀ (events : List XEvent) (cfg : JValue) (s : ConvState),
      processEvents cfg events initConvState = some s →
      md5MetricOf s.metric_names = specSignature (undecoratedNames s.records)) ∧
    xml_to_prometheus fixtureNumericEvents cfgEmpty = some fixtureNumericOutput ∧
    xml_to_prometheus fixtureNumericEvents cfgReplacements = some fixtureNumericOutput ∧
    xml_to_prometheus fixtureReplacedEvents cfgReplacements = some fixtureReplacedOutput ∧
    xml_to_prometheus fixtureDuplicateEvents cfgReplacements = some fixtureDuplicateOutput := by
  refine ⟨?_, by decide, by decide, by decide, by decide⟩
  intro events cfg s h
  exact md5MetricOf_eq_spec (processEvents_inv cfg events initConvState s h convInv_init)

/-- C3 witness: the refinement part instantiated on the conversion of
`<a>1</a>`. -/
theorem C3_witness :
    md5MetricOf exTinyState.metric_names = specSignature (undecoratedNames exTinyState.records) :=
  C3_signature_algorithm_and_fixture_values.1 exTinyEvents cfgEmpty exTinyState (by decide)

/-- C4: coercion order — a trimmed text that parses as `f64` is accepted
with the number's `Display` formatting, never consulting the replacement
table (whatever the table holds); otherwise the trimmed text is looked up
exactly (case-sensitively) in the table and the substitute's serialization
is accepted; otherwise the value is rejected with a diagnostic and — last
conjunct — a rejected text event emits no line and leaves the loop state
unchanged. -/
theorem C4_coercion_order :
    (∀ (value : String) (dict : JValue) (f : RustF64),
      rustParseF64 (strTrim value) = some f →
      nc_metric_to_number value dict = .ok (formatRustF64 f)) ∧
    (∀ (value : String) (dict : JValue) (v : JValue),
      rustParseF64 (strTrim value) = none →
      dict.get? (strTrim value) = some v →
      nc_metric_to_number value dict = .ok v.to_string) ∧
    (∀ (value : String) (dict : JValue),
      rustParseF64 (strTrim value) = none →
      dict.get? (strTrim value) = none →
      nc_metric_to_number value dict = .error
        ("Error when trying to convert " ++ value ++ "\n" ++ parseFloatErrorDebug (strTrim value))) ∧
    (∀ (cfg : JValue) (raw : String) (rest : List XEvent) (s : ConvState) (u msg : String),
      unescape raw = some u →
      nc_metric_to_number u (cfg.index "values") = .error msg →
      processEvents cfg (XEvent.text raw :: rest) s = processEvents cfg rest s) := by
  refine ⟨?_, ?_, ?_, ?_⟩
  · intro value dict f hf
    rw [nc_metric_to_number, hf]
  · intro value dict v hf hd
    rw [nc_metric_to_number, hf, hd]
  · intro value dict hf hd
    rw [nc_metric_to_number, hf, hd]
  · intro cfg raw rest s u msg hu hc
    simp only [processEvents, hu, hc]

/-- C4 witness: ` 12` is accepted as the number `12` even though the
replacement table is populated; `ok` goes through the table; `Foo` is
rejected; and a rejected text event (`Ok` under the empty config) leaves the
loop state untouched. -/
theorem C4_witness :
    nc_metric_to_number "   12" (cfgReplacements.index "values") =
      .ok (formatRustF64 (RustF64.finite (mkRat 12 1))) ∧
    nc_metric_to_number "ok" (cfgReplacements.index "values") =
      .ok (JValue.num 1).to_string ∧
    nc_metric_to_number "Foo" (cfgReplacements.index "values") = .error
      ("Error when trying to convert " ++ "Foo" ++ "\n" ++ parseFloatErrorDebug (strTrim "Foo")) ∧
    processEvents cfgEmpty (XEvent.text "Ok" :: [XEvent.eof]) exTinyState =
      processEvents cfgEmpty [XEvent.eof] exTinyState := by
  refine ⟨C4_coercion_order.1 "   12" _ _ (by decide),
    C4_coercion_order.2.1 "ok" _ _ (by decide) rfl,
    C4_coercion_order.2.2.1 "Foo" _ (by decide) rfl,
    C4_coercion_order.2.2.2 cfgEmpty "Ok" [XEvent.eof] exTinyState "Ok"
      ("Error when trying to convert " ++ "Ok" ++ "\n" ++ parseFloatErrorDebug (strTrim "Ok"))
      (by decide) rfl⟩

/-- C5: each accepted record increments the occurrence counter of its
undecorated name (the table always equals the occurrence counts of the
accepted records); the `c`-th occurrence is emitted unchanged when `c = 1`
and as `name ++ digits(c)` when `c > 1`; the set of table keys — which is
what the signature hashes — is the set of *undecorated* names; and on the
duplicate fixture the third `num_users` is emitted as
`storage_num_users3`. -/
theorem C5_occurrence_counter_and_suffix
    : (∀ (events : List XEvent) (cfg : JValue) (s : ConvState),
      processEvents cfg events initConvState = some s →
      WellDecorated [] s.records ∧
      (∀ n, (lookupCount s.metric_names n).getD 0 = (undecoratedNames s.records).count n) ∧
      (s.metric_names.map Prod.fst).toFinset = (undecoratedNames s.records).toFinset) ∧
    (processEvents cfgReplacements fixtureDuplicateEvents initConvState).map
        (fun s => s.records.map (·.decorated)) =
      some ["storage_num_users", "storage_num_users2", "storage_num_users3",
            "storage_num_files", "storage_num_storages"] := by
  refine ⟨?_, by decide⟩
  intro events cfg s h
  have inv := processEvents_inv cfg events initConvState s h convInv_init
  refine ⟨inv.wd, inv.counts, ?_⟩
  apply Finset.ext
  intro a
  rw [List.mem_toFinset, List.mem_toFinset]
  exact convInv_keys_mem inv a

/-- C5 witness: the general part instantiated on the conversion of
`<a>1</a>` (with the occurrence count of the name `a`). -/
theorem C5_witness :
    WellDecorated [] exTinyState.records ∧
    (lookupCount exTinyState.metric_names "a").getD 0 =
      (undecoratedNames exTinyState.records).count "a" ∧
    (exTinyState.metric_names.map Prod.fst).toFinset =
      (undecoratedNames exTinyState.records).toFinset := by
  have t := C5_occurrence_counter_and_suffix.1 exTinyEvents cfgEmpty exTinyState (by decide)
  exact ⟨t.1, t.2.1 "a", t.2.2⟩

/-- C6: a parse error is only logged: the loop continues with the next
reader event (it does not break), so metrics already produced are kept,
events after the error can still produce metrics, and the trailer covers
every name collected in the whole pass.  (The halting behaviour stated by
the claim is refuted by `C6_counterexample`.) -/
theorem C6_error_event_continues :
    (∀ (cfg : JValue) (rest : List XEvent) (s : ConvState),
      processEvents cfg (XEvent.err :: rest) s = processEvents cfg rest s) ∧
    (∀ (cfg : JValue) (events : List XEvent) (s s' : ConvState),
      processEvents cfg events s = some s' → ∃ t, s'.txt = s.txt ++ t) :=
  ⟨fun _ _ _ => rfl, fun cfg events s s' h => processEvents_txt_extends cfg events s s' h⟩

/-- C6 witness: skipping a concrete error event, and prefix preservation of
the lines across a concrete resumed run. -/
theorem C6_witness :
    processEvents cfgEmpty (XEvent.err :: [XEvent.eof]) exTinyState =
      processEvents cfgEmpty [XEvent.eof] exTinyState ∧
    (∃ t, exTinyState.txt = exTinyState.txt ++ t) :=
  ⟨C6_error_event_continues.1 cfgEmpty [XEvent.eof] exTinyState,
    C6_error_event_continues.2 cfgEmpty [XEvent.eof] exTinyState exTinyState rfl⟩

/-- C6 counterexample: on `<x><a>5</b><c>7</c></x>` the mismatched `</b>`
yields an error event at index 3, yet the later events still produce the
metric `x_a_c 7`, and the trailer hash covers `x_a_c` as well — the
traversal does not halt at the error. -/
theorem C6_counterexample :
    exC6Events[3]? = some XEvent.err ∧
    (processEvents cfgEmpty exC6Events initConvState).map (fun s => s.txt) =
      some ["x_a 5", "x_a_c 7"] ∧
    xml_to_prometheus exC6Events cfgEmpty = some
      ("x_a 5\nx_a_c 7\n" ++ hashComment1 ++ "\n" ++ hashComment2 ++ "\n" ++
        "nc_metric_names_hash 10040771") :=
  ⟨by decide, by decide, by decide⟩

/-- C7: the converter returns normally on every event stream whose text
events all unescape successfully; with the input being a UTF-8 `&str` and
the `from_str_radix` unwrap proven total, the unescape-and-decode unwrap is
the sole panic site.  (That it *can* panic — refuting the claim's
unconditional safety — is `C7_counterexample`.) -/
theorem C7_no_panic_when_texts_unescape (events : List XEvent) (cfg : JValue)
    (h : ∀ raw, XEvent.text raw ∈ events → (unescape raw).isSome) :
    (xml_to_prometheus events cfg).isSome := by
  rcases hp : processEvents cfg events initConvState with _ | s
  · have := processEvents_isSome cfg events initConvState h
    rw [hp] at this
    exact absurd this (by simp)
  · obtain ⟨v, hv, hout⟩ := xml_to_prometheus_output events cfg s hp
    rw [hout]
    rfl

/-- C7 witness: the conversion of `<a>1</a>` returns normally. -/
theorem C7_witness : (xml_to_prometheus exTinyEvents cfgEmpty).isSome := by
  apply C7_no_panic_when_texts_unescape
  intro raw hmem
  simp only [exTinyEvents, List.mem_cons, List.not_mem_nil, or_false,
    XEvent.text.injEq] at hmem
  rcases hmem with h | h | h | h
  · exact absurd h (by simp)
  · subst h; decide
  · exact absurd h (by simp)
  · exact absurd h (by simp)

/-- C7 counterexample: the text `x &bad; y` does not unescape (unknown
entity), so the source's `.unwrap()` panics — modelled as `none` — on the
document `<a>x &bad; y</a>`. -/
theorem C7_counterexample :
    unescape "x &bad; y" = none ∧
    xml_to_prometheus [XEvent.start "a", XEvent.text "x &bad; y", XEvent.«end», XEvent.eof]
      cfgEmpty = none :=
  ⟨by decide, by decide⟩

/-- C8: the output is the newline-join of one `decorated ++ " " ++ value`
line per accepted record, in acceptance order, followed by exactly two
comment lines starting with `#` and the final line
`nc_metric_names_hash <int>`. -/
theorem C8_output_shape (events : List XEvent) (cfg : JValue) (s : ConvState)
    (h : processEvents cfg events initConvState = some s) :
    ∃ v, md5MetricOf s.metric_names = some v ∧
      xml_to_prometheus events cfg = some (String.intercalate "\n"
        ((s.records.map fun r => r.decorated ++ " " ++ r.value) ++
          [hashComment1, hashComment2, "nc_metric_names_hash " ++ natDecimal v])) ∧
      hashComment1.data.take 1 = ['#'] ∧ hashComment2.data.take 1 = ['#'] := by
  have inv := processEvents_inv cfg events initConvState s h convInv_init
  obtain ⟨v, hv, hout⟩ := xml_to_prometheus_output events cfg s h
  refine ⟨v, hv, ?_, by decide, by decide⟩
  rw [hout, inv.txt_eq]

/-- C8 witness: the output shape instantiated on the conversion of
`<a>1</a>`. -/
theorem C8_witness :
    ∃ v, md5MetricOf exTinyState.metric_names = some v ∧
      xml_to_prometheus exTinyEvents cfgEmpty = some (String.intercalate "\n"
        ((exTinyState.records.map fun r => r.decorated ++ " " ++ r.value) ++
          [hashComment1, hashComment2, "nc_metric_names_hash " ++ natDecimal v])) ∧
      hashComment1.data.take 1 = ['#'] ∧ hashComment2.data.take 1 = ['#'] :=
  C8_output_shape exTinyEvents cfgEmpty exTinyState (by decide)

/-- C9: a non-numeric value whose replacement-table entry is a JSON *string*
is emitted as that string's JSON serialization, surrounding double quotes
included — the substitute `"1"` yields the line `a "1"`, not `a 1`. -/
theorem C9_string_substitute_keeps_quotes :
    (∀ (value : String) (dict : JValue) (sub : String),
      rustParseF64 (strTrim value) = none →
      dict.get? (strTrim value) = some (JValue.str sub) →
      nc_metric_to_number value dict = .ok (jsonSerializeString sub) ∧
      (jsonSerializeString sub).data.take 1 = ['"'] ∧
      (jsonSerializeString sub).data.getLast? = some '"') ∧
    nc_metric_to_number "down"
        ((JValue.obj [("values", JValue.obj [("down", JValue.str "1")])]).index "values") =
      .ok "\"1\"" ∧
    xml_to_prometheus [XEvent.start "a", XEvent.text "down", XEvent.«end», XEvent.eof]
        (JValue.obj [("values", JValue.obj [("down", JValue.str "1")])]) =
      some ("a \"1\"\n" ++ hashComment1 ++ "\n" ++ hashComment2 ++ "\n" ++
        "nc_metric_names_hash 6338341") := by
  refine ⟨?_, rfl, by decide⟩
  intro value dict sub hf hd
  refine ⟨by rw [nc_metric_to_number, hf, hd]; rfl, rfl, ?_⟩
  show (('"' :: (sub.data.map jsonEscapeChar).flatten) ++ ['"']).getLast? = some '"'
  rw [List.getLast?_concat]

/-- C9 witness: the general part instantiated on the substitute `"1"` for
the text `down`. -/
theorem C9_witness :
    nc_metric_to_number "down" (JValue.obj [("down", JValue.str "1")]) =
      .ok (jsonSerializeString "1") ∧
    (jsonSerializeString "1").data.take 1 = ['"'] ∧
    (jsonSerializeString "1").data.getLast? = some '"' :=
  C9_string_substitute_keeps_quotes.1 "down" (JValue.obj [("down", JValue.str "1")]) "1"
    (by decide) rfl

/-- C10: a conversion that accepts no record at all emits exactly the two
comment lines and `nc_metric_names_hash 13901196`, the signature of the
empty name set (first three bytes of the md5 of the empty string). -/
theorem C10_empty_conversion (events : List XEvent) (cfg : JValue) (s : ConvState)
    (h : processEvents cfg events initConvState = some s)
    (hrec : s.records = []) :
    xml_to_prometheus events cfg =
      some (hashComment1 ++ "\n" ++ hashComment2 ++ "\n" ++ "nc_metric_names_hash 13901196") := by
  have inv := processEvents_inv cfg events initConvState s h convInv_init
  have htxt : s.txt = [] := by rw [inv.txt_eq, hrec]; rfl
  have hkeys : s.metric_names = [] := by
    have h1 : s.metric_names.map Prod.fst = [] := by
      rw [List.eq_nil_iff_forall_not_mem]
      intro n hn
      have hm := (convInv_keys_mem inv n).mp hn
      rw [hrec] at hm
      exact absurd hm (List.not_mem_nil n)
    exact List.map_eq_nil_iff.mp h1
  obtain ⟨v, hv, hout⟩ := xml_to_prometheus_output events cfg s h
  rw [hkeys] at hv
  have hv13 : v = 13901196 := by
    have hval : md5MetricOf ([] : List (String × Nat)) = some 13901196 := by decide
    rw [hval] at hv
    exact ((Option.some.injEq _ _).mp hv).symm
  rw [hout, htxt, hv13]
  exact congrArg some (by decide)

/-- C10 witness: the empty document (just `Eof`) produces exactly the
trailer with signature `13901196`. -/
theorem C10_witness :
    xml_to_prometheus [XEvent.eof] cfgEmpty =
      some (hashComment1 ++ "\n" ++ hashComment2 ++ "\n" ++ "nc_metric_names_hash 13901196") :=
  C10_empty_conversion [XEvent.eof] cfgEmpty initConvState rfl rfl
